import Mathlib

/-!
# Verification of the `nyanc_lexer` scanner

A shallow embedding of the scanner in `src/lib.rs` (struct `Lexer` and its
methods `new`, `advance`, `peek`, `make_token`, `next_token`, `skip_whitespace`,
`scan_number`, `scan_string`, `scan_identifier`, and the `Iterator` instance)
together with the token and error data model of `src/tokens.rs` and the
`nyanc_core` span types, and proofs of the specification claims about them.

Modelling conventions:
* Source text is a `List Char` (Rust iterates `Chars`, i.e. Unicode scalar
  values); byte positions are UTF-8 byte offsets computed with `Char.utf8Size`.
* The Rust `Peekable<Chars>` cursor is represented by the `chars` field holding
  the not-yet-consumed suffix, together with the consumed prefix `pre`
  (so the full source is `pre ++ chars` and the Rust `current_pos` field is the
  derived byte length of `pre`; `advance` adds `len_utf8` of the consumed
  character to it, exactly as in the Rust code).
* The `DiagnosticsEngine` collaborator is an append-only error sink, embedded
  as the `errors` list that `add_error` appends to.
* `Token.lexeme` is the `&self.source[self.start_pos..self.current_pos]` byte
  slice of the source, embedded by `byteSlice` below.
-/

namespace NyanLexer

/-- UTF-8 byte length of a character sequence (Rust: sum of `char::len_utf8`). -/
def utf8Len (cs : List Char) : Nat := (cs.map Char.utf8Size).sum

/-- Drop the characters covered by the first `n` bytes of the UTF-8 encoding.
Models advancing a Rust byte index over `&str`; it is only ever applied at
character boundaries. -/
def byteDrop : Nat → List Char → List Char
  | 0, cs => cs
  | _ + 1, [] => []
  | n + 1, c :: cs => byteDrop (n + 1 - c.utf8Size) cs

/-- Take the characters covered by the first `n` bytes of the UTF-8 encoding.
Only ever applied at character boundaries. -/
def byteTake : Nat → List Char → List Char
  | 0, _ => []
  | _ + 1, [] => []
  | n + 1, c :: cs => c :: byteTake (n + 1 - c.utf8Size) cs

/-- The byte slice `&src[a..b]` of Rust, on the character-list model. -/
def byteSlice (cs : List Char) (a b : Nat) : List Char := byteTake (b - a) (byteDrop a cs)

/-- The token kinds used by the scanner in `src/lib.rs`: every `TokenType::…`
constructor that `next_token`, `scan_number`, `scan_string` and
`scan_identifier` build (including `DoubleColon`, `Float` and `Bool`). -/
inductive TokenType where
  | LeftBrace | RightBrace | LeftParen | RightParen
  | Colon | DoubleColon | Equal | Arrow | Caret | Ampersand | Dot | Comma
  | Plus | Minus | Star | Slash
  | Identifier | Integer | Float | String | Bool
  | Let | If | Else | While | Struct | Fun | Return | Pub | Use
  | Newline | Eof | Illegal
  deriving DecidableEq, Repr

/-- The variant list of the `TokenType` enum as actually declared in
`src/tokens.rs` (lines 11–50), in declaration order.  Note that this
declaration has no `DoubleColon`, `Float` or `Bool` variant. -/
def tokensRsDeclared : List TokenType :=
  [.LeftBrace, .RightBrace, .LeftParen, .RightParen, .Colon, .Equal, .Arrow,
   .Caret, .Ampersand, .Dot, .Comma, .Plus, .Minus, .Star, .Slash,
   .Identifier, .Integer, .String,
   .Let, .If, .Else, .While, .Struct, .Fun, .Return, .Pub, .Use,
   .Newline, .Eof, .Illegal]

/-- `nyanc_core::Span`: file id plus half-open byte range.  The Rust field
`end` is a Lean keyword, so it is called `stop` here. -/
structure Span where
  file_id : Nat
  start : Nat
  stop : Nat
  deriving DecidableEq, Repr

/-- `Token` from `src/tokens.rs`; the lexeme is kept as the character list of
the sliced source text. -/
structure Token where
  kind : TokenType
  lexeme : List Char
  span : Span
  deriving DecidableEq, Repr

/-- `nyanc_core::errors::LexerErrorKind`. -/
inductive LexerErrorKind where
  | UnterminatedString
  | InvalidEscapeSequence (c : Char)
  | UnnecessarySemicolon
  deriving DecidableEq, Repr

/-- `nyanc_core::errors::LexerError`: a kind together with its span. -/
structure LexerError where
  kind : LexerErrorKind
  span : Span
  deriving DecidableEq, Repr

/-- The scanner state (struct `Lexer` of `src/lib.rs`).  `pre` is the consumed
prefix of the source and `chars` the remaining character iterator, so the Rust
fields `source` and `current_pos` are the derived `pre ++ chars` and
`utf8Len pre`.  `errors` embeds the shared `DiagnosticsEngine` sink. -/
structure Lexer where
  file_id : Nat
  pre : List Char
  chars : List Char
  start_pos : Nat
  line : Nat
  column : Nat
  errors : List LexerError
  deriving DecidableEq, Repr

/-- The full source text the scanner was built over. -/
def Lexer.source (s : Lexer) : List Char := s.pre ++ s.chars

/-- The Rust field `current_pos`: byte index of the cursor. -/
def Lexer.current_pos (s : Lexer) : Nat := utf8Len s.pre

/-- `Lexer::new`: cursor at byte 0, line 1, column 1. -/
def Lexer.new (source : List Char) (file_id : Nat) : Lexer :=
  ⟨file_id, [], source, 0, 1, 1, []⟩

/-- `Lexer::advance`: consume one character, moving the byte cursor by its
UTF-8 width and the column by one. -/
def Lexer.advance (s : Lexer) : Option Char × Lexer :=
  match s.chars with
  | [] => (none, s)
  | c :: cs => (some c, { s with pre := s.pre ++ [c], chars := cs, column := s.column + 1 })

/-- `Lexer::peek`: look at the next character without consuming it. -/
def Lexer.peek (s : Lexer) : Option Char := s.chars.head?

/-- `DiagnosticsEngine::add_error`: append an error to the sink. -/
def Lexer.add_error (s : Lexer) (e : LexerError) : Lexer :=
  { s with errors := s.errors ++ [e] }

/-- `Lexer::make_token`: slice the lexeme out of the source between
`start_pos` and `current_pos` and attach the span. -/
def Lexer.make_token (s : Lexer) (kind : TokenType) : Token :=
  { kind := kind
    lexeme := byteSlice s.source s.start_pos s.current_pos
    span := ⟨s.file_id, s.start_pos, s.current_pos⟩ }

/-- The loop condition of `Lexer::skip_whitespace`:
space, tab and carriage return (not newline). -/
def is_hspace (c : Char) : Bool := c == ' ' || c == '\t' || c == '\r'

/-- A `while let Some(c) = self.peek()`-style loop that consumes characters
while `p` holds, used by `skip_whitespace`, the digit loops of `scan_number`
and the loop of `scan_identifier`.  The list argument is the scanner's
remaining `chars`, duplicated as a structural recursion handle. -/
def eat_chars (p : Char → Bool) : List Char → Lexer → Lexer
  | c :: cs, s => if p c then eat_chars p cs (s.advance).2 else s
  | [], s => s

/-- `Lexer::skip_whitespace`. -/
def Lexer.skip_whitespace (s : Lexer) : Lexer :=
  eat_chars is_hspace s.chars s

/-- `Lexer::scan_number`: greedy integer part, then the two-character
lookahead (a `.` followed by an ASCII digit) deciding float versus integer. -/
def Lexer.scan_number (s : Lexer) : Token × Lexer :=
  let s1 := eat_chars Char.isDigit s.chars s
  match s1.chars with
  | '.' :: c2 :: _ =>
    if c2.isDigit then
      let s2 := (s1.advance).2
      let s3 := eat_chars Char.isDigit s2.chars s2
      (s3.make_token TokenType.Float, s3)
    else (s1.make_token TokenType.Integer, s1)
  | _ => (s1.make_token TokenType.Integer, s1)

/-- The loop of `Lexer::scan_string`, entered just after the opening quote was
consumed.  The list argument is the scanner's remaining `chars`, duplicated as
a structural recursion handle. -/
def scan_string_loop : List Char → Lexer → Token × Lexer
  | '"' :: _, s =>
    let s1 := (s.advance).2
    (s1.make_token TokenType.String, s1)
  | [], s =>
    let err : LexerError := ⟨.UnterminatedString, ⟨s.file_id, s.start_pos, s.current_pos⟩⟩
    let s1 := s.add_error err
    (s1.make_token TokenType.Illegal, s1)
  | '\n' :: cs, s =>
    let s1 := (s.advance).2
    scan_string_loop cs { s1 with line := s1.line + 1, column := 1 }
  | ['\\'], s =>
    let s1 := (s.advance).2
    let err : LexerError := ⟨.UnterminatedString, ⟨s1.file_id, s1.start_pos, s1.current_pos⟩⟩
    let s2 := s1.add_error err
    (s2.make_token TokenType.Illegal, s2)
  | '\\' :: c2 :: cs, s =>
    let s1 := (s.advance).2
    if c2 = '"' ∨ c2 = '\\' ∨ c2 = 'n' ∨ c2 = 'r' ∨ c2 = 't' then
      scan_string_loop cs (s1.advance).2
    else
      let err_start := s1.current_pos - 1
      let s2 := (s1.advance).2
      let err : LexerError := ⟨.InvalidEscapeSequence c2, ⟨s2.file_id, err_start, s2.current_pos⟩⟩
      scan_string_loop cs (s2.add_error err)
  | _ :: cs, s =>
    scan_string_loop cs (s.advance).2

/-- `Lexer::scan_string`. -/
def Lexer.scan_string (s : Lexer) : Token × Lexer :=
  scan_string_loop s.chars s

/-- Modelled from the spec: Rust's `char::is_alphabetic` tests the Unicode
`Alphabetic` property (spec §4.1 dispatches "Alphabetic or `_`" to the
identifier sub-scanner); the Unicode tables are not part of this repository,
so the property is modelled on representative ranges: ASCII letters, Latin-1
letters, Greek letters, Hiragana and the CJK unified ideographs. -/
def rustIsAlphabetic (c : Char) : Bool :=
  let n := c.toNat
  (0x41 ≤ n && n ≤ 0x5A) || (0x61 ≤ n && n ≤ 0x7A) ||
  (0xC0 ≤ n && n ≤ 0xD6) || (0xD8 ≤ n && n ≤ 0xF6) || (0xF8 ≤ n && n ≤ 0xFF) ||
  (0x391 ≤ n && n ≤ 0x3A1) || (0x3B1 ≤ n && n ≤ 0x3C9) ||
  (0x3041 ≤ n && n ≤ 0x3096) || (0x4E00 ≤ n && n ≤ 0x9FFF)

/-- Modelled from the spec: Rust's `char::is_alphanumeric` is the Unicode
`Alphabetic` property united with the numeric general categories; modelled as
the alphabetic model above together with the ASCII digits. -/
def rustIsAlphanumeric (c : Char) : Bool :=
  rustIsAlphabetic c || c.isDigit

/-- The loop condition of `Lexer::scan_identifier`:
`c.is_alphanumeric() || c == '_'`. -/
def is_ident_char (c : Char) : Bool := rustIsAlphanumeric c || c == '_'

/-- The keyword table of `Lexer::scan_identifier`: the `match lexeme` that
classifies a scanned identifier lexeme. -/
def keyword_kind (lexeme : List Char) : TokenType :=
  if lexeme = "true".toList ∨ lexeme = "false".toList then TokenType.Bool
  else if lexeme = "fun".toList then TokenType.Fun
  else if lexeme = "let".toList then TokenType.Let
  else if lexeme = "if".toList then TokenType.If
  else if lexeme = "else".toList then TokenType.Else
  else if lexeme = "while".toList then TokenType.While
  else if lexeme = "struct".toList then TokenType.Struct
  else if lexeme = "return".toList then TokenType.Return
  else if lexeme = "pub".toList then TokenType.Pub
  else if lexeme = "use".toList then TokenType.Use
  else TokenType.Identifier

/-- `Lexer::scan_identifier`: greedy alphanumeric/underscore loop, then the
keyword table on the scanned lexeme. -/
def Lexer.scan_identifier (s : Lexer) : Token × Lexer :=
  let s1 := eat_chars is_ident_char s.chars s
  let lexeme := byteSlice s1.source s1.start_pos s1.current_pos
  (s1.make_token (keyword_kind lexeme), s1)

/-- `Lexer::next_token`: skip whitespace, mark the token start, dispatch on
the consumed character (or return the `Eof` sentinel at end of input). -/
def Lexer.next_token (s : Lexer) : Token × Lexer :=
  let s := s.skip_whitespace
  let s : Lexer := { s with start_pos := s.current_pos }
  match s.advance with
  | (some c, s) =>
    if c = '{' then (s.make_token TokenType.LeftBrace, s)
    else if c = '}' then (s.make_token TokenType.RightBrace, s)
    else if c = '(' then (s.make_token TokenType.LeftParen, s)
    else if c = ')' then (s.make_token TokenType.RightParen, s)
    else if c = '=' then (s.make_token TokenType.Equal, s)
    else if c = '^' then (s.make_token TokenType.Caret, s)
    else if c = '&' then (s.make_token TokenType.Ampersand, s)
    else if c = '.' then (s.make_token TokenType.Dot, s)
    else if c = ',' then (s.make_token TokenType.Comma, s)
    else if c = '+' then (s.make_token TokenType.Plus, s)
    else if c = '*' then (s.make_token TokenType.Star, s)
    else if c = '/' then (s.make_token TokenType.Slash, s)
    else if c = '-' then
      if s.peek = some '>' then
        let s := (s.advance).2
        (s.make_token TokenType.Arrow, s)
      else (s.make_token TokenType.Minus, s)
    else if c = ':' then
      if s.peek = some ':' then
        let s := (s.advance).2
        (s.make_token TokenType.DoubleColon, s)
      else (s.make_token TokenType.Colon, s)
    else if c = '\n' then
      let token := s.make_token TokenType.Newline
      let s : Lexer := { s with line := s.line + 1, column := 1 }
      (token, s)
    else if c = '"' then s.scan_string
    else if c.isDigit then s.scan_number
    else if rustIsAlphabetic c || c = '_' then s.scan_identifier
    else if c = ';' then
      let err : LexerError := ⟨.UnnecessarySemicolon, ⟨s.file_id, s.start_pos, s.current_pos⟩⟩
      let s := s.add_error err
      (s.make_token TokenType.Illegal, s)
    else (s.make_token TokenType.Illegal, s)
  | (none, s) =>
    (⟨TokenType.Eof, [], ⟨s.file_id, s.current_pos, s.current_pos⟩⟩, s)

/-- `Iterator::next` for `Lexer`: the `Eof` sentinel becomes `none` and is
never yielded. -/
def Lexer.next (s : Lexer) : Option Token × Lexer :=
  let r := s.next_token
  if r.1.kind = TokenType.Eof then (none, r.2) else (some r.1, r.2)

/-! ## Byte-offset arithmetic -/

theorem utf8Len_nil : utf8Len [] = 0 := rfl

theorem utf8Len_cons (c : Char) (cs : List Char) :
    utf8Len (c :: cs) = c.utf8Size + utf8Len cs := by
  simp [utf8Len]

theorem utf8Len_append (xs ys : List Char) :
    utf8Len (xs ++ ys) = utf8Len xs + utf8Len ys := by
  simp [utf8Len]

theorem utf8Len_singleton (c : Char) : utf8Len [c] = c.utf8Size := by
  simp [utf8Len]

/-- Dropping exactly the bytes of a prefix lands at the character boundary. -/
theorem byteDrop_boundary (p rest : List Char) :
    byteDrop (utf8Len p) (p ++ rest) = rest := by
  induction p with
  | nil => simp [utf8Len, byteDrop]
  | cons c p ih =>
    have hpos := Char.utf8Size_pos c
    rw [utf8Len_cons, List.cons_append]
    cases hn : c.utf8Size + utf8Len p with
    | zero => omega
    | succ m =>
      show byteDrop (m + 1) (c :: (p ++ rest)) = rest
      simp only [byteDrop]
      have h2 : m + 1 - c.utf8Size = utf8Len p := by omega
      rw [h2]; exact ih

/-- Taking exactly the bytes of a prefix recovers the prefix. -/
theorem byteTake_boundary (p rest : List Char) :
    byteTake (utf8Len p) (p ++ rest) = p := by
  induction p with
  | nil => simp [utf8Len, byteTake]
  | cons c p ih =>
    have hpos := Char.utf8Size_pos c
    rw [utf8Len_cons, List.cons_append]
    cases hn : c.utf8Size + utf8Len p with
    | zero => omega
    | succ m =>
      show byteTake (m + 1) (c :: (p ++ rest)) = c :: p
      simp only [byteTake]
      have h2 : m + 1 - c.utf8Size = utf8Len p := by omega
      rw [h2, ih]

/-- Slicing between the boundaries around `d` recovers `d`. -/
theorem byteSlice_boundary (p d rest : List Char) :
    byteSlice (p ++ d ++ rest) (utf8Len p) (utf8Len p + utf8Len d) = d := by
  unfold byteSlice
  rw [Nat.add_sub_cancel_left, List.append_assoc, byteDrop_boundary p (d ++ rest),
    byteTake_boundary]

/-- `make_token` in terms of a boundary decomposition of the consumed prefix:
the lexeme is exactly the characters consumed since the token start. -/
theorem make_token_eq (s : Lexer) (k : TokenType) (p d : List Char)
    (hpre : s.pre = p ++ d) (hstart : s.start_pos = utf8Len p) :
    s.make_token k = ⟨k, d, ⟨s.file_id, utf8Len p, utf8Len p + utf8Len d⟩⟩ := by
  unfold Lexer.make_token Lexer.source Lexer.current_pos
  rw [hpre, hstart, utf8Len_append, byteSlice_boundary]

/-! ## Behaviour of the cursor primitives -/

theorem advance_cons (s : Lexer) (c : Char) (cs : List Char) (h : s.chars = c :: cs) :
    s.advance = (some c, ⟨s.file_id, s.pre ++ [c], cs, s.start_pos, s.line,
      s.column + 1, s.errors⟩) := by
  unfold Lexer.advance; rw [h]

theorem advance_nil (s : Lexer) (h : s.chars = []) : s.advance = (none, s) := by
  unfold Lexer.advance; rw [h]

/-- Closed form of the `eat_chars` loop when the handle equals the scanner's
remaining characters: it consumes exactly the maximal prefix satisfying `p`. -/
theorem eat_chars_eq (p : Char → Bool) :
    ∀ (cs : List Char) (s : Lexer), s.chars = cs →
    eat_chars p cs s =
      ⟨s.file_id, s.pre ++ cs.takeWhile p, cs.dropWhile p, s.start_pos, s.line,
       s.column + (cs.takeWhile p).length, s.errors⟩ := by
  intro cs
  induction cs with
  | nil =>
    intro s h
    cases s
    simp_all [eat_chars]
  | cons c cs ih =>
    intro s h
    show eat_chars p (c :: cs) s = _
    simp only [eat_chars]
    by_cases hp : p c
    · rw [if_pos hp]
      have ha := advance_cons s c cs h
      rw [show (s.advance).2 = ⟨s.file_id, s.pre ++ [c], cs, s.start_pos, s.line,
            s.column + 1, s.errors⟩ from by rw [ha]]
      rw [ih _ rfl]
      simp [List.takeWhile_cons, List.dropWhile_cons, hp, List.append_assoc]
      omega
    · rw [if_neg hp]
      cases s
      simp_all [List.takeWhile_cons, List.dropWhile_cons, hp]

/-- Closed form of `skip_whitespace`. -/
theorem skip_whitespace_eq (s : Lexer) :
    s.skip_whitespace =
      ⟨s.file_id, s.pre ++ s.chars.takeWhile is_hspace, s.chars.dropWhile is_hspace,
       s.start_pos, s.line, s.column + (s.chars.takeWhile is_hspace).length, s.errors⟩ :=
  eat_chars_eq _ _ _ rfl

/-! ## Shapes of the sub-scanners

Every sub-scanner consumes a prefix of the remaining characters, leaves
`file_id` and `start_pos` untouched, only appends to the error sink, and
returns a token made by `make_token` at its final state with a non-`Eof` kind. -/

def ScanShape (s : Lexer) (r : Token × Lexer) : Prop :=
  ∃ (dd chars2 : List Char) (line2 col2 : Nat) (es : List LexerError),
    r.2 = ⟨s.file_id, s.pre ++ dd, chars2, s.start_pos, line2, col2, s.errors ++ es⟩ ∧
    s.chars = dd ++ chars2 ∧
    r.1 = r.2.make_token r.1.kind ∧
    r.1.kind ≠ TokenType.Eof

theorem keyword_kind_ne (l : List Char) :
    keyword_kind l ≠ TokenType.Eof ∧ keyword_kind l ≠ TokenType.Illegal := by
  unfold keyword_kind
  split_ifs <;> simp

theorem scan_identifier_shape (s : Lexer) : ScanShape s s.scan_identifier := by
  unfold ScanShape
  simp only [Lexer.scan_identifier]
  rw [eat_chars_eq is_ident_char s.chars s rfl]
  exact ⟨s.chars.takeWhile is_ident_char, s.chars.dropWhile is_ident_char, s.line,
    s.column + (s.chars.takeWhile is_ident_char).length, [], by simp,
    (List.takeWhile_append_dropWhile _ _).symm, rfl, (keyword_kind_ne _).1⟩

theorem scan_number_shape (s : Lexer) : ScanShape s s.scan_number := by
  unfold ScanShape
  simp only [Lexer.scan_number]
  rw [eat_chars_eq Char.isDigit s.chars s rfl]
  dsimp only
  cases hdw : s.chars.dropWhile Char.isDigit with
  | nil =>
    exact ⟨s.chars.takeWhile Char.isDigit, [], s.line,
      s.column + (s.chars.takeWhile Char.isDigit).length, [], by simp,
      by rw [← hdw]; exact (List.takeWhile_append_dropWhile _ _).symm, rfl,
      by simp [Lexer.make_token]⟩
  | cons c1 tl =>
    have hsplit : s.chars = s.chars.takeWhile Char.isDigit ++ (c1 :: tl) := by
      rw [← hdw]; exact (List.takeWhile_append_dropWhile _ _).symm
    split
    next c2 tl2 heq =>
      -- the lookahead saw `'.'` followed by `c2`
      cases heq
      by_cases hd2 : c2.isDigit
      · rw [if_pos hd2]
        rw [show ((⟨s.file_id, s.pre ++ s.chars.takeWhile Char.isDigit, '.' :: c2 :: tl2,
              s.start_pos, s.line, s.column + (s.chars.takeWhile Char.isDigit).length,
              s.errors⟩ : Lexer).advance).2 = ⟨s.file_id,
              (s.pre ++ s.chars.takeWhile Char.isDigit) ++ ['.'], c2 :: tl2, s.start_pos, s.line,
              (s.column + (s.chars.takeWhile Char.isDigit).length) + 1, s.errors⟩ from by
            rw [advance_cons _ _ _ rfl]]
        rw [eat_chars_eq Char.isDigit (c2 :: tl2) _ rfl]
        refine ⟨s.chars.takeWhile Char.isDigit ++ '.' :: (c2 :: tl2).takeWhile Char.isDigit,
          (c2 :: tl2).dropWhile Char.isDigit, s.line,
          s.column + (s.chars.takeWhile Char.isDigit).length + 1 +
            ((c2 :: tl2).takeWhile Char.isDigit).length, [], by simp, ?_, rfl,
          by simp [Lexer.make_token]⟩
        rw [show (List.takeWhile Char.isDigit s.chars ++
              '.' :: List.takeWhile Char.isDigit (c2 :: tl2)) ++
              List.dropWhile Char.isDigit (c2 :: tl2) =
            List.takeWhile Char.isDigit s.chars ++ '.' :: c2 :: tl2 from by
          simp only [List.append_assoc, List.cons_append, List.takeWhile_append_dropWhile]]
        exact hsplit
      · rw [if_neg hd2]
        exact ⟨s.chars.takeWhile Char.isDigit, '.' :: c2 :: tl2, s.line,
          s.column + (s.chars.takeWhile Char.isDigit).length, [], by simp, hsplit, rfl,
          by simp [Lexer.make_token]⟩
    next hne =>
      exact ⟨s.chars.takeWhile Char.isDigit, c1 :: tl, s.line,
        s.column + (s.chars.takeWhile Char.isDigit).length, [], by simp, hsplit, rfl,
        by simp [Lexer.make_token]⟩

/-! ### Branch equations of the string loop -/

theorem ssl_nil (s : Lexer) :
    scan_string_loop [] s =
      ((s.add_error ⟨.UnterminatedString, ⟨s.file_id, s.start_pos, s.current_pos⟩⟩).make_token
          TokenType.Illegal,
        s.add_error ⟨.UnterminatedString, ⟨s.file_id, s.start_pos, s.current_pos⟩⟩) := rfl

theorem ssl_quote (cs : List Char) (s : Lexer) :
    scan_string_loop ('"' :: cs) s =
      (((s.advance).2).make_token TokenType.String, (s.advance).2) := rfl

theorem ssl_newline (cs : List Char) (s : Lexer) :
    scan_string_loop ('\n' :: cs) s =
      scan_string_loop cs
        { (s.advance).2 with line := (s.advance).2.line + 1, column := 1 } := rfl

theorem ssl_backslash_nil (s : Lexer) :
    scan_string_loop ['\\'] s =
      ((((s.advance).2).add_error ⟨.UnterminatedString,
          ⟨(s.advance).2.file_id, (s.advance).2.start_pos, (s.advance).2.current_pos⟩⟩).make_token
          TokenType.Illegal,
        ((s.advance).2).add_error ⟨.UnterminatedString,
          ⟨(s.advance).2.file_id, (s.advance).2.start_pos, (s.advance).2.current_pos⟩⟩) := rfl

theorem ssl_backslash_cons (c2 : Char) (cs : List Char) (s : Lexer) :
    scan_string_loop ('\\' :: c2 :: cs) s =
      (if c2 = '"' ∨ c2 = '\\' ∨ c2 = 'n' ∨ c2 = 'r' ∨ c2 = 't' then
        scan_string_loop cs (((s.advance).2).advance).2
      else
        scan_string_loop cs ((((s.advance).2).advance).2.add_error
          ⟨.InvalidEscapeSequence c2,
            ⟨(((s.advance).2).advance).2.file_id, (s.advance).2.current_pos - 1,
              (((s.advance).2).advance).2.current_pos⟩⟩)) := rfl

theorem ssl_other (c : Char) (cs : List Char) (s : Lexer)
    (h1 : c ≠ '"') (h2 : c ≠ '\n') (h3 : c ≠ '\\') :
    scan_string_loop (c :: cs) s = scan_string_loop cs (s.advance).2 := by
  rw [scan_string_loop.eq_def]
  split <;> simp_all

/-- A `ScanShape` over a later state transfers to an earlier state that it
extends by consumed characters `d0` and recorded errors `es0`. -/
theorem ScanShape.pre_extend {s2 : Lexer} {r : Token × Lexer} (h : ScanShape s2 r)
    (s : Lexer) (d0 : List Char) (es0 : List LexerError)
    (hpre : s2.pre = s.pre ++ d0) (hchars : s.chars = d0 ++ s2.chars)
    (hstart : s2.start_pos = s.start_pos) (hfid : s2.file_id = s.file_id)
    (herr : s2.errors = s.errors ++ es0) :
    ScanShape s r := by
  obtain ⟨dd, chars2, l2, c2, es, h1, h2, h3, h4⟩ := h
  refine ⟨d0 ++ dd, chars2, l2, c2, es0 ++ es, ?_, ?_, h3, h4⟩
  · rw [h1, hpre, hstart, hfid, herr]
    simp [List.append_assoc]
  · rw [hchars, h2, List.append_assoc]

theorem scan_string_shape_nil (s : Lexer) (hcs : s.chars = []) :
    ScanShape s (scan_string_loop [] s) := by
  rw [ssl_nil]
  refine ⟨[], [], s.line, s.column,
    [⟨.UnterminatedString, ⟨s.file_id, s.start_pos, s.current_pos⟩⟩], ?_, by simp [hcs], rfl,
    by simp [Lexer.make_token]⟩
  cases s
  simp_all [Lexer.add_error]

theorem scan_string_loop_shape :
    ∀ (n : Nat) (cs : List Char) (s : Lexer), cs.length ≤ n → s.chars = cs →
      ScanShape s (scan_string_loop cs s) := by
  intro n
  induction n with
  | zero =>
    intro cs s hlen hcs
    have h0 : cs = [] := by cases cs <;> simp_all
    subst h0
    exact scan_string_shape_nil s hcs
  | succ n ih =>
    intro cs s hlen hcs
    cases cs with
    | nil => exact scan_string_shape_nil s hcs
    | cons c cs' =>
      have ha2 : (s.advance).2 = ⟨s.file_id, s.pre ++ [c], cs', s.start_pos, s.line,
          s.column + 1, s.errors⟩ := by rw [advance_cons s c cs' hcs]
      by_cases hq : c = '"'
      · subst hq
        rw [ssl_quote, ha2]
        exact ⟨['"'], cs', s.line, s.column + 1, [], by simp, by simp [hcs], rfl,
          by simp [Lexer.make_token]⟩
      · by_cases hnl : c = '\n'
        · subst hnl
          rw [ssl_newline, ha2]
          refine ScanShape.pre_extend
            (ih cs' _ (by simp only [List.length_cons] at hlen; omega) rfl)
            s ['\n'] [] rfl (by simp [hcs]) rfl rfl (by simp)
        · by_cases hbs : c = '\\'
          · subst hbs
            cases cs' with
            | nil =>
              rw [ssl_backslash_nil, ha2]
              exact ⟨['\\'], [], s.line, s.column + 1,
                [⟨.UnterminatedString, ⟨s.file_id, s.start_pos, utf8Len (s.pre ++ ['\\'])⟩⟩],
                by simp [Lexer.add_error, Lexer.current_pos], by simp [hcs], rfl,
                by simp [Lexer.make_token]⟩
            | cons c2 cs'' =>
              rw [ssl_backslash_cons]
              have hb2 : (((s.advance).2).advance).2 = ⟨s.file_id, (s.pre ++ ['\\']) ++ [c2],
                  cs'', s.start_pos, s.line, s.column + 2, s.errors⟩ := by
                rw [ha2, advance_cons _ c2 cs'' rfl]
              by_cases hval : c2 = '"' ∨ c2 = '\\' ∨ c2 = 'n' ∨ c2 = 'r' ∨ c2 = 't'
              · rw [if_pos hval, hb2]
                refine ScanShape.pre_extend
                  (ih cs'' _ (by simp only [List.length_cons] at hlen; omega) rfl)
                  s ['\\', c2] [] (by simp) (by simp [hcs]) rfl rfl (by simp)
              · rw [if_neg hval, hb2, ha2]
                refine ScanShape.pre_extend
                  (ih cs'' _ (by simp only [List.length_cons] at hlen; omega) rfl)
                  s ['\\', c2]
                  [⟨.InvalidEscapeSequence c2,
                    ⟨s.file_id, utf8Len (s.pre ++ ['\\']) - 1, utf8Len ((s.pre ++ ['\\']) ++ [c2])⟩⟩]
                  (by simp [Lexer.add_error]) (by simp [hcs, Lexer.add_error])
                  (by simp [Lexer.add_error]) (by simp [Lexer.add_error])
                  (by simp [Lexer.add_error, Lexer.current_pos])
          · rw [ssl_other c cs' s hq hnl hbs, ha2]
            refine ScanShape.pre_extend
              (ih cs' _ (by simp only [List.length_cons] at hlen; omega) rfl)
              s [c] [] rfl (by simp [hcs]) rfl rfl (by simp)

theorem scan_string_shape (s : Lexer) : ScanShape s s.scan_string := by
  unfold Lexer.scan_string
  exact scan_string_loop_shape s.chars.length s.chars s (le_refl _) rfl

/-! ## The shape of one `next_token` step -/

/-- The conclusion of the master lemma `next_token_shape`, as a predicate on
the scanner state and the result of one call: some leading whitespace `w` was
skipped, the token covers exactly the consumed characters `d` with byte-exact
span, the state advanced accordingly, and errors were only appended. -/
def StepShape (s : Lexer) (r : Token × Lexer) : Prop :=
  ∃ (w d chars2 : List Char) (line2 col2 : Nat) (es : List LexerError),
    r = (⟨r.1.kind, d, ⟨s.file_id, utf8Len (s.pre ++ w), utf8Len (s.pre ++ w) + utf8Len d⟩⟩,
         ⟨s.file_id, (s.pre ++ w) ++ d, chars2, utf8Len (s.pre ++ w), line2, col2,
          s.errors ++ es⟩) ∧
    s.chars = (w ++ d) ++ chars2 ∧
    (∀ c ∈ w, is_hspace c = true) ∧
    (r.1.kind = TokenType.Eof → d = [] ∧ chars2 = []) ∧
    (r.1.kind ≠ TokenType.Eof → d ≠ [])

theorem onechar_shape (s st : Lexer) (w : List Char) (c : Char) (r' : List Char)
    (K : TokenType)
    (hchars : s.chars = w ++ c :: r') (hw : ∀ x ∈ w, is_hspace x = true)
    (hK : K ≠ TokenType.Eof)
    (hst : st = ⟨s.file_id, (s.pre ++ w) ++ [c], r', utf8Len (s.pre ++ w), s.line,
      s.column + w.length + 1, s.errors⟩) :
    StepShape s (st.make_token K, st) := by
  subst hst
  unfold StepShape
  refine ⟨w, [c], r', s.line, s.column + w.length + 1, [], ?_, ?_, hw, ?_, ?_⟩
  · refine Prod.ext ?_ ?_
    · rw [make_token_eq _ K (s.pre ++ w) [c] rfl rfl]
    · simp
  · rw [hchars]; simp
  · intro h; exact absurd h hK
  · intro _; simp

theorem twochar_shape (s st : Lexer) (w : List Char) (c c2 : Char) (r' : List Char)
    (K : TokenType)
    (hchars : s.chars = w ++ c :: c2 :: r') (hw : ∀ x ∈ w, is_hspace x = true)
    (hK : K ≠ TokenType.Eof)
    (hst : st = ⟨s.file_id, ((s.pre ++ w) ++ [c]) ++ [c2], r', utf8Len (s.pre ++ w), s.line,
      s.column + w.length + 1 + 1, s.errors⟩) :
    StepShape s (st.make_token K, st) := by
  subst hst
  unfold StepShape
  refine ⟨w, [c, c2], r', s.line, s.column + w.length + 1 + 1, [], ?_, ?_, hw, ?_, ?_⟩
  · refine Prod.ext ?_ ?_
    · rw [make_token_eq _ K (s.pre ++ w) [c, c2] (by simp) rfl]
    · simp
  · rw [hchars]; simp
  · intro h; exact absurd h hK
  · intro _; simp

theorem scanned_shape (s st : Lexer) (w : List Char) (c : Char) (r' : List Char)
    (r : Token × Lexer)
    (hchars : s.chars = w ++ c :: r') (hw : ∀ x ∈ w, is_hspace x = true)
    (hst : st = ⟨s.file_id, (s.pre ++ w) ++ [c], r', utf8Len (s.pre ++ w), s.line,
      s.column + w.length + 1, s.errors⟩)
    (hshape : ScanShape st r) :
    StepShape s r := by
  subst hst
  obtain ⟨dd, chars2, l2, c2n, es, h1, h2, h3, h4⟩ := hshape
  have h1' : r.2 = ⟨s.file_id, ((s.pre ++ w) ++ [c]) ++ dd, chars2, utf8Len (s.pre ++ w),
      l2, c2n, s.errors ++ es⟩ := h1
  have h2' : r' = dd ++ chars2 := h2
  unfold StepShape
  refine ⟨w, c :: dd, chars2, l2, c2n, es, ?_, ?_, hw, ?_, ?_⟩
  · refine Prod.ext ?_ ?_
    · conv_lhs => rw [h3]
      rw [make_token_eq r.2 r.1.kind (s.pre ++ w) (c :: dd) (by rw [h1']; simp)
        (by rw [h1'])]
      rw [h1']
    · rw [h1']; simp
  · rw [hchars, h2']; simp
  · intro h; exact absurd h h4
  · intro _; simp

set_option maxHeartbeats 1600000 in
/-- Master lemma, abstracted over the whitespace split of the remaining
characters: one `next_token` call always has `StepShape`. -/
theorem next_token_shape_core (s : Lexer) (w r : List Char)
    (hchars : s.chars = w ++ r) (hw : ∀ x ∈ w, is_hspace x = true)
    (hskip : s.skip_whitespace = ⟨s.file_id, s.pre ++ w, r, s.start_pos, s.line,
      s.column + w.length, s.errors⟩) :
    StepShape s s.next_token := by
  unfold Lexer.next_token
  rw [hskip]
  dsimp only [Lexer.current_pos, Lexer.peek]
  cases r with
  | nil =>
    dsimp only [Lexer.advance]
    unfold StepShape
    refine ⟨w, [], [], s.line, s.column + w.length, [], ?_, ?_, hw, ?_, ?_⟩
    · simp [utf8Len_nil]
    · simpa using hchars
    · intro _; exact ⟨rfl, rfl⟩
    · intro h; exact absurd rfl h
  | cons c r' =>
    dsimp only [Lexer.advance]
    by_cases h1 : c = '{'
    case pos =>
      rw [if_pos h1]
      exact onechar_shape s _ w c r' TokenType.LeftBrace hchars hw (by simp) rfl
    rw [if_neg h1]
    by_cases h2 : c = '}'
    case pos =>
      rw [if_pos h2]
      exact onechar_shape s _ w c r' TokenType.RightBrace hchars hw (by simp) rfl
    rw [if_neg h2]
    by_cases h3 : c = '('
    case pos =>
      rw [if_pos h3]
      exact onechar_shape s _ w c r' TokenType.LeftParen hchars hw (by simp) rfl
    rw [if_neg h3]
    by_cases h4 : c = ')'
    case pos =>
      rw [if_pos h4]
      exact onechar_shape s _ w c r' TokenType.RightParen hchars hw (by simp) rfl
    rw [if_neg h4]
    by_cases h5 : c = '='
    case pos =>
      rw [if_pos h5]
      exact onechar_shape s _ w c r' TokenType.Equal hchars hw (by simp) rfl
    rw [if_neg h5]
    by_cases h6 : c = '^'
    case pos =>
      rw [if_pos h6]
      exact onechar_shape s _ w c r' TokenType.Caret hchars hw (by simp) rfl
    rw [if_neg h6]
    by_cases h7 : c = '&'
    case pos =>
      rw [if_pos h7]
      exact onechar_shape s _ w c r' TokenType.Ampersand hchars hw (by simp) rfl
    rw [if_neg h7]
    by_cases h8 : c = '.'
    case pos =>
      rw [if_pos h8]
      exact onechar_shape s _ w c r' TokenType.Dot hchars hw (by simp) rfl
    rw [if_neg h8]
    by_cases h9 : c = ','
    case pos =>
      rw [if_pos h9]
      exact onechar_shape s _ w c r' TokenType.Comma hchars hw (by simp) rfl
    rw [if_neg h9]
    by_cases h10 : c = '+'
    case pos =>
      rw [if_pos h10]
      exact onechar_shape s _ w c r' TokenType.Plus hchars hw (by simp) rfl
    rw [if_neg h10]
    by_cases h11 : c = '*'
    case pos =>
      rw [if_pos h11]
      exact onechar_shape s _ w c r' TokenType.Star hchars hw (by simp) rfl
    rw [if_neg h11]
    by_cases h12 : c = '/'
    case pos =>
      rw [if_pos h12]
      exact onechar_shape s _ w c r' TokenType.Slash hchars hw (by simp) rfl
    rw [if_neg h12]
    by_cases h13 : c = '-'
    case pos =>
      rw [if_pos h13]
      by_cases hp1 : r'.head? = some '>'
      case pos =>
        rw [if_pos hp1]
        cases r' with
        | nil => simp at hp1
        | cons d0 r'' =>
          have hd0 : d0 = '>' := by simpa using hp1
          subst hd0
          dsimp only [Lexer.advance]
          exact twochar_shape s _ w c '>' r'' TokenType.Arrow hchars hw (by simp) rfl
      rw [if_neg hp1]
      exact onechar_shape s _ w c r' TokenType.Minus hchars hw (by simp) rfl
    rw [if_neg h13]
    by_cases h14 : c = ':'
    case pos =>
      rw [if_pos h14]
      by_cases hp2 : r'.head? = some ':'
      case pos =>
        rw [if_pos hp2]
        cases r' with
        | nil => simp at hp2
        | cons d0 r'' =>
          have hd0 : d0 = ':' := by simpa using hp2
          subst hd0
          dsimp only [Lexer.advance]
          exact twochar_shape s _ w c ':' r'' TokenType.DoubleColon hchars hw (by simp) rfl
      rw [if_neg hp2]
      exact onechar_shape s _ w c r' TokenType.Colon hchars hw (by simp) rfl
    rw [if_neg h14]
    by_cases h15 : c = '\n'
    case pos =>
      rw [if_pos h15]
      unfold StepShape
      refine ⟨w, [c], r', s.line + 1, 1, [], ?_, ?_, hw, ?_, ?_⟩
      · refine Prod.ext ?_ ?_
        · rw [make_token_eq _ TokenType.Newline (s.pre ++ w) [c] rfl rfl]
        · simp
      · rw [hchars]; simp
      · intro h; exact absurd h (by simp [Lexer.make_token])
      · intro _; simp
    rw [if_neg h15]
    by_cases h16 : c = '"'
    case pos =>
      rw [if_pos h16]
      exact scanned_shape s _ w c r' _ hchars hw rfl (scan_string_shape _)
    rw [if_neg h16]
    by_cases h17 : c.isDigit = true
    case pos =>
      rw [if_pos h17]
      exact scanned_shape s _ w c r' _ hchars hw rfl (scan_number_shape _)
    rw [if_neg h17]
    by_cases h18 : (rustIsAlphabetic c || c = '_') = true
    case pos =>
      rw [if_pos h18]
      exact scanned_shape s _ w c r' _ hchars hw rfl (scan_identifier_shape _)
    rw [if_neg h18]
    by_cases h19 : c = ';'
    case pos =>
      rw [if_pos h19]
      unfold StepShape
      refine ⟨w, [c], r', s.line, s.column + w.length + 1,
        [⟨.UnnecessarySemicolon, ⟨s.file_id, utf8Len (s.pre ++ w),
          utf8Len ((s.pre ++ w) ++ [c])⟩⟩], ?_, ?_, hw, ?_, ?_⟩
      · refine Prod.ext ?_ ?_
        · rw [make_token_eq _ TokenType.Illegal (s.pre ++ w) [c] rfl rfl]
          rfl
        · simp [Lexer.add_error]
      · rw [hchars]; simp
      · intro h; exact absurd h (by simp [Lexer.make_token])
      · intro _; simp
    rw [if_neg h19]
    exact onechar_shape s _ w c r' TokenType.Illegal hchars hw (by simp) rfl

/-- Every `next_token` call has `StepShape`. -/
theorem next_token_shape (s : Lexer) : StepShape s s.next_token :=
  next_token_shape_core s (s.chars.takeWhile is_hspace) (s.chars.dropWhile is_hspace)
    (List.takeWhile_append_dropWhile _ _).symm
    (fun _ hx => List.mem_takeWhile_imp hx)
    (skip_whitespace_eq s)

/-! ## Consequences of the master lemma -/

/-- Per-call facts: the source is preserved, errors only accumulate, and the
returned token's lexeme is the byte-exact slice of the source at its span. -/
theorem next_token_facts (s : Lexer) :
    (s.next_token).2.source = s.source ∧
    (s.next_token).2.file_id = s.file_id ∧
    (∃ es, (s.next_token).2.errors = s.errors ++ es) ∧
    s.current_pos ≤ (s.next_token).1.span.start ∧
    (s.next_token).1.span.start ≤ (s.next_token).1.span.stop ∧
    (s.next_token).1.span.stop = (s.next_token).2.current_pos ∧
    (s.next_token).1.span.file_id = s.file_id ∧
    (s.next_token).1.lexeme =
      byteSlice s.source (s.next_token).1.span.start (s.next_token).1.span.stop ∧
    utf8Len (s.next_token).1.lexeme =
      (s.next_token).1.span.stop - (s.next_token).1.span.start := by
  obtain ⟨w, d, chars2, l2, c2, es, heq, hchars, hwsp, hEof, hne⟩ := next_token_shape s
  rw [heq]
  refine ⟨?_, rfl, ⟨es, rfl⟩, ?_, ?_, ?_, rfl, ?_, ?_⟩
  · show ((s.pre ++ w) ++ d) ++ chars2 = s.source
    rw [Lexer.source, hchars]
    simp [List.append_assoc]
  · show utf8Len s.pre ≤ utf8Len (s.pre ++ w)
    rw [utf8Len_append]
    exact Nat.le_add_right _ _
  · exact Nat.le_add_right _ _
  · show utf8Len (s.pre ++ w) + utf8Len d = utf8Len ((s.pre ++ w) ++ d)
    simp [utf8Len_append]
    omega
  · show d = byteSlice s.source (utf8Len (s.pre ++ w)) (utf8Len (s.pre ++ w) + utf8Len d)
    rw [show s.source = ((s.pre ++ w) ++ d) ++ chars2 from by
      rw [Lexer.source, hchars]; simp [List.append_assoc]]
    exact (byteSlice_boundary _ _ _).symm
  · show utf8Len d = (utf8Len (s.pre ++ w) + utf8Len d) - utf8Len (s.pre ++ w)
    omega

/-- Progress: a call that does not return the `Eof` sentinel strictly shortens
the remaining character list. -/
theorem next_token_progress (s : Lexer) :
    (s.next_token).1.kind = TokenType.Eof ∨
      (s.next_token).2.chars.length < s.chars.length := by
  obtain ⟨w, d, chars2, l2, c2, es, heq, hchars, hwsp, hEof, hne⟩ := next_token_shape s
  by_cases hk : (s.next_token).1.kind = TokenType.Eof
  · exact Or.inl hk
  · right
    have hd : d ≠ [] := hne hk
    have h2 : (s.next_token).2.chars = chars2 := by rw [heq]
    rw [h2, hchars]
    cases d with
    | nil => exact absurd rfl hd
    | cons a as =>
      simp only [List.length_append, List.length_cons]
      omega

/-- A non-empty remainder means the byte cursor strictly advances. -/
theorem next_token_cursor_advances (s : Lexer) (h : s.chars ≠ []) :
    s.current_pos < (s.next_token).2.current_pos := by
  obtain ⟨w, d, chars2, l2, c2, es, heq, hchars, hwsp, hEof, hne⟩ := next_token_shape s
  have h2 : (s.next_token).2.current_pos = utf8Len ((s.pre ++ w) ++ d) := by rw [heq]; rfl
  have hwd : w ++ d ≠ [] := by
    by_cases hk : (s.next_token).1.kind = TokenType.Eof
    · intro hcon
      apply h
      rw [hchars, hcon, (hEof hk).2]
      rfl
    · exact fun hcon => (hne hk) (List.append_eq_nil.mp hcon).2
  have hpos : 0 < utf8Len (w ++ d) := by
    cases hwd0 : w ++ d with
    | nil => exact absurd hwd0 hwd
    | cons a as =>
      rw [utf8Len_cons]
      have := Char.utf8Size_pos a
      omega
  rw [h2, Lexer.current_pos, utf8Len_append, utf8Len_append]
  rw [utf8Len_append] at hpos
  omega

/-- The state returned together with the `Eof` sentinel has no characters
left. -/
theorem next_token_eof_state (s : Lexer) (h : (s.next_token).1.kind = TokenType.Eof) :
    (s.next_token).2.chars = [] := by
  obtain ⟨w, d, chars2, l2, c2, es, heq, hchars, hwsp, hEof, hne⟩ := next_token_shape s
  have h2 : (s.next_token).2.chars = chars2 := by rw [heq]
  rw [h2]
  exact (hEof h).2

theorem next_eq_some (s : Lexer) (t : Token) (s1 : Lexer) (h : s.next = (some t, s1)) :
    t = (s.next_token).1 ∧ s1 = (s.next_token).2 ∧ t.kind ≠ TokenType.Eof := by
  simp only [Lexer.next] at h
  by_cases hk : (s.next_token).1.kind = TokenType.Eof
  · rw [if_pos hk] at h; simp at h
  · rw [if_neg hk] at h
    simp only [Prod.mk.injEq, Option.some.injEq] at h
    refine ⟨h.1.symm, h.2.symm, ?_⟩
    rw [← h.1]
    exact hk

theorem next_eq_none (s : Lexer) (s1 : Lexer) (h : s.next = (none, s1)) :
    s1 = (s.next_token).2 ∧ (s.next_token).1.kind = TokenType.Eof := by
  simp only [Lexer.next] at h
  by_cases hk : (s.next_token).1.kind = TokenType.Eof
  · rw [if_pos hk] at h
    simp only [Prod.mk.injEq] at h
    exact ⟨h.2.symm, hk⟩
  · rw [if_neg hk] at h; simp at h

theorem next_some_progress (s : Lexer) (t : Token) (s1 : Lexer) (h : s.next = (some t, s1)) :
    s1.chars.length < s.chars.length := by
  obtain ⟨ht, hs1, hk⟩ := next_eq_some s t s1 h
  rw [ht] at hk
  cases next_token_progress s with
  | inl h' => exact absurd h' hk
  | inr h' => rw [hs1]; exact h'

/-- At end of input, `next_token` returns the zero-width `Eof` sentinel with an
empty lexeme, leaving the state unchanged except for the token-start mark. -/
theorem next_token_empty (s : Lexer) (h : s.chars = []) :
    s.next_token = (⟨TokenType.Eof, [], ⟨s.file_id, s.current_pos, s.current_pos⟩⟩,
      { s with start_pos := s.current_pos }) := by
  unfold Lexer.next_token
  rw [show s.skip_whitespace = s from by
    rw [skip_whitespace_eq s, h]; cases s; simp_all]
  dsimp only [Lexer.current_pos]
  rw [show ({ s with start_pos := utf8Len s.pre } : Lexer).advance
      = (none, { s with start_pos := utf8Len s.pre }) from advance_nil _ h]

theorem next_empty (s : Lexer) (h : s.chars = []) :
    s.next = (none, { s with start_pos := s.current_pos }) := by
  simp only [Lexer.next, next_token_empty s h, if_true]

/-! ## The token stream (consuming the `Iterator`) -/

/-- Collecting `Iterator for Lexer` into a list together with the final
scanner state: the embedding of `for token in lexer { … }` and
`lexer.collect::<Vec<_>>()` as the tests use them.  Terminates because every
yielded token consumes at least one character. -/
def Lexer.tokenize (s : Lexer) : List Token × Lexer :=
  match h : s.next with
  | (some t, s1) => (t :: (s1.tokenize).1, (s1.tokenize).2)
  | (none, s1) => ([], s1)
termination_by s.chars.length
decreasing_by all_goals exact next_some_progress s t s1 h

theorem tokenize_some (s s1 : Lexer) (t : Token) (h : s.next = (some t, s1)) :
    s.tokenize = (t :: (s1.tokenize).1, (s1.tokenize).2) := by
  rw [Lexer.tokenize.eq_def]
  split
  next t' s1' heq =>
    rw [h] at heq
    simp only [Prod.mk.injEq, Option.some.injEq] at heq
    rw [heq.1, heq.2]
  next s1' heq =>
    rw [h] at heq
    simp at heq

theorem tokenize_none (s s1 : Lexer) (h : s.next = (none, s1)) :
    s.tokenize = ([], s1) := by
  rw [Lexer.tokenize.eq_def]
  split
  next t' s1' heq =>
    rw [h] at heq
    simp at heq
  next s1' heq =>
    rw [h] at heq
    simp only [Prod.mk.injEq] at heq
    rw [heq.2]

/-- Stream-level facts, by strong induction on the remaining length: every
yielded token has a byte-exact lexeme and span, spans are monotone, the stream
never yields `Eof`, the final state has consumed everything, at most one token
is yielded per remaining character, and errors only accumulate. -/
theorem tokenize_spec :
    ∀ (n : Nat) (s : Lexer), s.chars.length ≤ n →
      (∀ t ∈ (s.tokenize).1,
        s.current_pos ≤ t.span.start ∧ t.span.start ≤ t.span.stop ∧
        t.span.file_id = s.file_id ∧
        t.lexeme = byteSlice s.source t.span.start t.span.stop ∧
        utf8Len t.lexeme = t.span.stop - t.span.start ∧
        t.kind ≠ TokenType.Eof) ∧
      List.Chain' (fun a b => a.span.stop ≤ b.span.start) (s.tokenize).1 ∧
      (s.tokenize).2.chars = [] ∧
      (s.tokenize).1.length ≤ s.chars.length ∧
      (∃ es, (s.tokenize).2.errors = s.errors ++ es) := by
  intro n
  induction n with
  | zero =>
    intro s hlen
    have hc : s.chars = [] := List.length_eq_zero.mp (Nat.le_zero.mp hlen)
    rw [tokenize_none s _ (next_empty s hc)]
    exact ⟨by simp, by simp, hc, by simp, ⟨[], by simp⟩⟩
  | succ n ih =>
    intro s hlen
    cases hnx : s.next with
    | mk o s1 =>
      cases o with
      | none =>
        obtain ⟨hs1, hk⟩ := next_eq_none s s1 hnx
        rw [tokenize_none s s1 hnx]
        refine ⟨by simp, by simp, ?_, by simp, ?_⟩
        · rw [hs1]; exact next_token_eof_state s hk
        · obtain ⟨-, -, ⟨es, hes⟩, -⟩ := next_token_facts s
          exact ⟨es, by rw [hs1]; exact hes⟩
      | some t =>
        obtain ⟨ht, hs1, hk⟩ := next_eq_some s t s1 hnx
        rw [tokenize_some s s1 t hnx]
        have hlt : s1.chars.length < s.chars.length := next_some_progress s t s1 hnx
        have hlen1 : s1.chars.length ≤ n := by omega
        obtain ⟨ihmem, ihchain, ihchars, ihlen, ihez⟩ := ih s1 hlen1
        obtain ⟨hsrc, hfid, ⟨es0, hes0⟩, hc1, hc2, hc3, hc4, hc5, hc6⟩ := next_token_facts s
        rw [← hs1] at hsrc hfid hes0 hc3
        rw [← ht] at hc1 hc2 hc3 hc4 hc5 hc6
        refine ⟨?_, ?_, ihchars, ?_, ?_⟩
        · intro t' ht'
          cases ht' with
          | head => exact ⟨hc1, hc2, hc4, hc5, hc6, hk⟩
          | tail _ hmem =>
            obtain ⟨m1, m2, m3, m4, m5, m6⟩ := ihmem t' hmem
            refine ⟨?_, m2, ?_, ?_, m5, m6⟩
            · calc s.current_pos ≤ t.span.stop := le_trans hc1 hc2
                _ = s1.current_pos := hc3
                _ ≤ t'.span.start := m1
            · rw [m3, hfid]
            · rw [m4, hsrc]
        · rw [List.chain'_cons']
          refine ⟨?_, ihchain⟩
          intro y hy
          have hymem : y ∈ (s1.tokenize).1 := List.mem_of_mem_head? hy
          rw [hc3]
          exact (ihmem y hymem).1
        · simp only [List.length_cons]
          omega
        · obtain ⟨es1, hes1⟩ := ihez
          exact ⟨es0 ++ es1, by rw [hes1, hes0, List.append_assoc]⟩


/-! ## Dispatch lemmas for single characters -/

theorem is_hspace_iff (c : Char) :
    is_hspace c = true ↔ (c = ' ' ∨ c = '\t' ∨ c = '\r') := by
  simp [is_hspace]
  tauto

theorem skip_whitespace_noop (s : Lexer) (c : Char) (rest : List Char)
    (h : s.chars = c :: rest) (hws : is_hspace c = false) : s.skip_whitespace = s := by
  rw [skip_whitespace_eq s, h]
  cases s
  simp_all [List.takeWhile_cons, List.dropWhile_cons]

theorem keyword_kind_mem (l : List Char) :
    keyword_kind l ∈ [TokenType.Identifier, TokenType.Bool, TokenType.Let, TokenType.If,
      TokenType.Else, TokenType.While, TokenType.Struct, TokenType.Fun, TokenType.Return,
      TokenType.Pub, TokenType.Use] := by
  unfold keyword_kind
  split_ifs <;> simp

/-- The spec's two-character lookahead test for a fractional part (§4.1,
number sub-scan): the next character is `.` and the one after it is an ASCII
digit. -/
def floatLookahead (l : List Char) : Bool :=
  match l with
  | c :: d :: _ => c == '.' && d.isDigit
  | _ => false

/-- Dispatch: a `.` at the cursor always produces a `Dot` token of width 1. -/
theorem next_token_dot (s : Lexer) (rest : List Char) (h : s.chars = '.' :: rest) :
    (s.next_token).1 = ⟨TokenType.Dot, ['.'], ⟨s.file_id, s.current_pos, s.current_pos + 1⟩⟩ ∧
    (s.next_token).2.chars = rest := by
  have hskip := skip_whitespace_noop s '.' rest h (by decide)
  unfold Lexer.next_token
  rw [hskip]
  dsimp only [Lexer.current_pos, Lexer.peek, Lexer.advance]
  rw [h]
  dsimp only
  rw [if_neg (by decide : ¬('.' : Char) = '{')]
  rw [if_neg (by decide : ¬('.' : Char) = '}')]
  rw [if_neg (by decide : ¬('.' : Char) = '(')]
  rw [if_neg (by decide : ¬('.' : Char) = ')')]
  rw [if_neg (by decide : ¬('.' : Char) = '=')]
  rw [if_neg (by decide : ¬('.' : Char) = '^')]
  rw [if_neg (by decide : ¬('.' : Char) = '&')]
  rw [if_pos (rfl : ('.' : Char) = '.')]
  refine ⟨?_, rfl⟩
  rw [make_token_eq _ TokenType.Dot s.pre ['.'] rfl rfl]
  simp [utf8Len_singleton, show ('.' : Char).utf8Size = 1 from by decide]

/-- Dispatch: a `"` at the cursor delegates to the string sub-scanner. -/
theorem next_token_quote (s : Lexer) (rest : List Char) (h : s.chars = '"' :: rest) :
    s.next_token = Lexer.scan_string ⟨s.file_id, s.pre ++ ['"'], rest, s.current_pos,
      s.line, s.column + 1, s.errors⟩ := by
  have hskip := skip_whitespace_noop s '"' rest h (by decide)
  unfold Lexer.next_token
  rw [hskip]
  dsimp only [Lexer.current_pos, Lexer.peek, Lexer.advance]
  rw [h]
  dsimp only
  rw [if_neg (by decide : ¬('"' : Char) = '{')]
  rw [if_neg (by decide : ¬('"' : Char) = '}')]
  rw [if_neg (by decide : ¬('"' : Char) = '(')]
  rw [if_neg (by decide : ¬('"' : Char) = ')')]
  rw [if_neg (by decide : ¬('"' : Char) = '=')]
  rw [if_neg (by decide : ¬('"' : Char) = '^')]
  rw [if_neg (by decide : ¬('"' : Char) = '&')]
  rw [if_neg (by decide : ¬('"' : Char) = '.')]
  rw [if_neg (by decide : ¬('"' : Char) = ',')]
  rw [if_neg (by decide : ¬('"' : Char) = '+')]
  rw [if_neg (by decide : ¬('"' : Char) = '*')]
  rw [if_neg (by decide : ¬('"' : Char) = '/')]
  rw [if_neg (by decide : ¬('"' : Char) = '-')]
  rw [if_neg (by decide : ¬('"' : Char) = ':')]
  rw [if_neg (by decide : ¬('"' : Char) = '\n')]
  rw [if_pos (rfl : ('"' : Char) = '"')]

/-- Dispatch: a `\n` at the cursor produces the Newline token before the
line/column counters update. -/
theorem next_token_newline (s : Lexer) (rest : List Char) (h : s.chars = '\n' :: rest) :
    (s.next_token).1 =
      ⟨TokenType.Newline, ['\n'], ⟨s.file_id, s.current_pos, s.current_pos + 1⟩⟩ ∧
    (s.next_token).2 = ⟨s.file_id, s.pre ++ ['\n'], rest, s.current_pos, s.line + 1, 1,
      s.errors⟩ := by
  have hskip := skip_whitespace_noop s '\n' rest h (by decide)
  unfold Lexer.next_token
  rw [hskip]
  dsimp only [Lexer.current_pos, Lexer.peek, Lexer.advance]
  rw [h]
  dsimp only
  rw [if_neg (by decide : ¬('\n' : Char) = '{')]
  rw [if_neg (by decide : ¬('\n' : Char) = '}')]
  rw [if_neg (by decide : ¬('\n' : Char) = '(')]
  rw [if_neg (by decide : ¬('\n' : Char) = ')')]
  rw [if_neg (by decide : ¬('\n' : Char) = '=')]
  rw [if_neg (by decide : ¬('\n' : Char) = '^')]
  rw [if_neg (by decide : ¬('\n' : Char) = '&')]
  rw [if_neg (by decide : ¬('\n' : Char) = '.')]
  rw [if_neg (by decide : ¬('\n' : Char) = ',')]
  rw [if_neg (by decide : ¬('\n' : Char) = '+')]
  rw [if_neg (by decide : ¬('\n' : Char) = '*')]
  rw [if_neg (by decide : ¬('\n' : Char) = '/')]
  rw [if_neg (by decide : ¬('\n' : Char) = '-')]
  rw [if_neg (by decide : ¬('\n' : Char) = ':')]
  rw [if_pos (rfl : ('\n' : Char) = '\n')]
  refine ⟨?_, rfl⟩
  rw [make_token_eq _ TokenType.Newline s.pre ['\n'] rfl rfl]
  simp [utf8Len_singleton, show ('\n' : Char).utf8Size = 1 from by decide]


/-! ## Alphabetic dispatch (for C10) -/

theorem rustIsAlphabetic_ge (c : Char) (h : rustIsAlphabetic c = true) : 65 ≤ c.toNat := by
  simp [rustIsAlphabetic] at h
  omega

theorem alpha_not_digit (c : Char) (h65 : 65 ≤ c.toNat) : c.isDigit = false := by
  cases hd : c.isDigit
  · rfl
  · exfalso
    simp [Char.isDigit] at hd
    obtain ⟨h1, h2⟩ := hd
    rw [UInt32.le_def, BitVec.le_def] at h2
    have e1 : ((57 : UInt32)).toBitVec.toNat = 57 := by decide
    have e2 : c.val.toBitVec.toNat = c.toNat := rfl
    omega

/-- C10: a Unicode-alphabetic character (or `_`) at the cursor delegates to
the identifier sub-scanner, which greedily consumes Unicode alphanumerics and
`_` and classifies the lexeme by the keyword table as a keyword, boolean or
`Identifier` — never as `Illegal`. -/
theorem next_token_alpha (s : Lexer) (c : Char) (cs : List Char)
    (h : s.chars = c :: cs) (ha : rustIsAlphabetic c = true ∨ c = '_') :
    s.next_token = Lexer.scan_identifier ⟨s.file_id, s.pre ++ [c], cs,
      s.current_pos, s.line, s.column + 1, s.errors⟩ ∧
    (s.next_token).1.lexeme = c :: cs.takeWhile is_ident_char ∧
    (s.next_token).1.kind ∈ [TokenType.Identifier, TokenType.Bool, TokenType.Let,
      TokenType.If, TokenType.Else, TokenType.While, TokenType.Struct, TokenType.Fun,
      TokenType.Return, TokenType.Pub, TokenType.Use] ∧
    (s.next_token).1.kind ≠ TokenType.Illegal := by
  have h65 : 65 ≤ c.toNat := by
    cases ha with
    | inl h' => exact rustIsAlphabetic_ge c h'
    | inr h' => subst h'; decide
  have hws : is_hspace c = false := by
    cases hb : is_hspace c
    · rfl
    · exfalso
      rcases (is_hspace_iff c).mp hb with h' | h' | h' <;> (subst h'; revert ha; decide)
  have halpha : (rustIsAlphabetic c || c = '_') = true := by
    cases ha with
    | inl h' => simp [h']
    | inr h' => subst h'; decide
  have hskip := skip_whitespace_noop s c cs h hws
  unfold Lexer.next_token
  rw [hskip]
  dsimp only [Lexer.current_pos, Lexer.peek, Lexer.advance]
  rw [h]
  dsimp only
  rw [if_neg (show ¬c = '{' from by intro hc; subst hc; revert ha; decide)]
  rw [if_neg (show ¬c = '}' from by intro hc; subst hc; revert ha; decide)]
  rw [if_neg (show ¬c = '(' from by intro hc; subst hc; revert ha; decide)]
  rw [if_neg (show ¬c = ')' from by intro hc; subst hc; revert ha; decide)]
  rw [if_neg (show ¬c = '=' from by intro hc; subst hc; revert ha; decide)]
  rw [if_neg (show ¬c = '^' from by intro hc; subst hc; revert ha; decide)]
  rw [if_neg (show ¬c = '&' from by intro hc; subst hc; revert ha; decide)]
  rw [if_neg (show ¬c = '.' from by intro hc; subst hc; revert ha; decide)]
  rw [if_neg (show ¬c = ',' from by intro hc; subst hc; revert ha; decide)]
  rw [if_neg (show ¬c = '+' from by intro hc; subst hc; revert ha; decide)]
  rw [if_neg (show ¬c = '*' from by intro hc; subst hc; revert ha; decide)]
  rw [if_neg (show ¬c = '/' from by intro hc; subst hc; revert ha; decide)]
  rw [if_neg (show ¬c = '-' from by intro hc; subst hc; revert ha; decide)]
  rw [if_neg (show ¬c = ':' from by intro hc; subst hc; revert ha; decide)]
  rw [if_neg (show ¬c = '\n' from by intro hc; subst hc; revert ha; decide)]
  rw [if_neg (show ¬c = '"' from by intro hc; subst hc; revert ha; decide)]
  rw [if_neg (show ¬c.isDigit = true from by simp [alpha_not_digit c h65])]
  rw [if_pos halpha]
  refine ⟨rfl, ?_, ?_, ?_⟩
  · simp only [Lexer.scan_identifier]
    rw [eat_chars_eq is_ident_char cs _ rfl]
    rw [make_token_eq _ _ s.pre (c :: List.takeWhile is_ident_char cs) (by simp) rfl]
  · exact keyword_kind_mem _
  · exact (keyword_kind_ne _).2


/-! ## Number classification (for C3) -/

/-- C3: after the greedy digit phase (`dropWhile` of ASCII digits), the
token is `Float` exactly when the two-character lookahead sees `.` then a
digit; otherwise it is `Integer` and the `.` stays unconsumed, so the next
call produces a `Dot` token. -/
theorem scan_number_classification (s : Lexer) :
    ((s.scan_number).1.kind = TokenType.Float ↔
      floatLookahead (s.chars.dropWhile Char.isDigit) = true) ∧
    ((s.scan_number).1.kind = TokenType.Float ∨
      (s.scan_number).1.kind = TokenType.Integer) ∧
    ((s.scan_number).1.kind = TokenType.Integer →
      (s.scan_number).2.chars = s.chars.dropWhile Char.isDigit) ∧
    (∀ rest', s.chars.dropWhile Char.isDigit = '.' :: rest' →
      (s.scan_number).1.kind = TokenType.Integer →
      ((s.scan_number).2.next_token).1 =
        ⟨TokenType.Dot, ['.'], ⟨s.file_id, (s.scan_number).2.current_pos,
          (s.scan_number).2.current_pos + 1⟩⟩) ∧
    (∀ d r', s.chars.dropWhile Char.isDigit = '.' :: d :: r' → d.isDigit = true →
      (s.scan_number).2.chars = (d :: r').dropWhile Char.isDigit) := by
  simp only [Lexer.scan_number]
  rw [eat_chars_eq Char.isDigit s.chars s rfl]
  dsimp only
  cases hdw : s.chars.dropWhile Char.isDigit with
  | nil =>
    refine ⟨?_, Or.inr rfl, fun _ => rfl, ?_, ?_⟩
    · simp [Lexer.make_token, floatLookahead]
    · intro rest' hco
      exact absurd hco (by simp)
    · intro d r' hco
      exact absurd hco (by simp)
  | cons c1 tl =>
    split
    next c2 tl2 heq =>
      cases heq
      by_cases hd2 : c2.isDigit = true
      · rw [if_pos hd2]
        refine ⟨?_, Or.inl rfl, ?_, ?_, ?_⟩
        · simp [Lexer.make_token, floatLookahead, hd2]
        · intro hcon
          simp [Lexer.make_token] at hcon
        · intro rest' hco hcon
          simp [Lexer.make_token] at hcon
        · intro d r' hco hdig
          simp only [List.cons.injEq, true_and] at hco
          obtain ⟨h1, h2⟩ := hco
          subst h1
          subst h2
          rw [advance_cons (⟨s.file_id, s.pre ++ List.takeWhile Char.isDigit s.chars,
              '.' :: c2 :: tl2, s.start_pos, s.line,
              s.column + (List.takeWhile Char.isDigit s.chars).length, s.errors⟩ : Lexer)
              '.' (c2 :: tl2) rfl]
          dsimp only
          rw [eat_chars_eq Char.isDigit (c2 :: tl2)
            (⟨s.file_id, (s.pre ++ List.takeWhile Char.isDigit s.chars) ++ ['.'],
              c2 :: tl2, s.start_pos, s.line,
              s.column + (List.takeWhile Char.isDigit s.chars).length + 1,
              s.errors⟩ : Lexer) rfl]
      · rw [if_neg hd2]
        refine ⟨?_, Or.inr rfl, fun _ => rfl, ?_, ?_⟩
        · simp [Lexer.make_token, floatLookahead, hd2]
        · intro rest' hco _
          obtain ⟨ht, -⟩ := next_token_dot
            (⟨s.file_id, s.pre ++ s.chars.takeWhile Char.isDigit, '.' :: c2 :: tl2,
              s.start_pos, s.line,
              s.column + (s.chars.takeWhile Char.isDigit).length, s.errors⟩ : Lexer)
            (c2 :: tl2) rfl
          exact ht
        · intro d r' hco hdig
          simp only [List.cons.injEq, true_and] at hco
          obtain ⟨h1, h2⟩ := hco
          subst h1
          exact absurd hdig hd2
    next hne =>
      refine ⟨?_, Or.inr rfl, fun _ => rfl, ?_, ?_⟩
      · cases tl with
        | nil => simp [Lexer.make_token, floatLookahead]
        | cons c2 tl2 =>
          have hc1 : ¬ c1 = '.' := fun hcon => hne c2 tl2 (by rw [hcon])
          simp [Lexer.make_token, floatLookahead, hc1]
      · intro rest' hco _
        obtain ⟨ht, -⟩ := next_token_dot
          (⟨s.file_id, s.pre ++ s.chars.takeWhile Char.isDigit, c1 :: tl,
            s.start_pos, s.line,
            s.column + (s.chars.takeWhile Char.isDigit).length, s.errors⟩ : Lexer)
          rest' hco
        exact ht
      · intro d r' hco
        exact absurd hco (hne d r')


/-! ## Unterminated strings (for C4) -/

/-- If no closing quote remains, the string loop consumes everything, records
`UnterminatedString` from the token start to the final cursor (after any
invalid-escape errors), and returns an `Illegal` token. -/
theorem scan_string_loop_unterminated :
    ∀ (n : Nat) (cs : List Char) (s : Lexer), cs.length ≤ n → s.chars = cs → '"' ∉ cs →
      ∃ (es : List LexerError) (s2 : Lexer),
        scan_string_loop cs s = (s2.make_token TokenType.Illegal, s2) ∧
        s2.pre = s.pre ++ cs ∧ s2.chars = [] ∧ s2.start_pos = s.start_pos ∧
        s2.file_id = s.file_id ∧
        s2.errors = s.errors ++ es ++
          [⟨.UnterminatedString, ⟨s.file_id, s.start_pos, utf8Len s.pre + utf8Len cs⟩⟩] ∧
        (∀ e ∈ es, ∃ ch, e.kind = LexerErrorKind.InvalidEscapeSequence ch) := by
  intro n
  induction n with
  | zero =>
    intro cs s hlen hcs hq
    have h0 : cs = [] := by cases cs <;> simp_all
    subst h0
    rw [ssl_nil]
    refine ⟨[], _, rfl, by simp [Lexer.add_error], by simp [Lexer.add_error, hcs],
      by simp [Lexer.add_error], by simp [Lexer.add_error], ?_, by simp⟩
    simp [Lexer.add_error, Lexer.current_pos, utf8Len_nil]
  | succ n ih =>
    intro cs s hlen hcs hq
    cases cs with
    | nil =>
      rw [ssl_nil]
      refine ⟨[], _, rfl, by simp [Lexer.add_error], by simp [Lexer.add_error, hcs],
        by simp [Lexer.add_error], by simp [Lexer.add_error], ?_, by simp⟩
      simp [Lexer.add_error, Lexer.current_pos, utf8Len_nil]
    | cons c cs' =>
      have hcq : c ≠ '"' := fun hcon => hq (by rw [hcon]; exact List.mem_cons_self _ _)
      have hq' : '"' ∉ cs' := fun hcon => hq (List.mem_cons_of_mem _ hcon)
      have ha2 : (s.advance).2 = ⟨s.file_id, s.pre ++ [c], cs', s.start_pos, s.line,
          s.column + 1, s.errors⟩ := by rw [advance_cons s c cs' hcs]
      by_cases hnl : c = '\n'
      · subst hnl
        rw [ssl_newline, ha2]
        obtain ⟨es, s2, hres, hpre, hch, hst, hfid, herr, hinv⟩ :=
          ih cs' (⟨s.file_id, s.pre ++ ['\n'], cs', s.start_pos, s.line + 1, 1,
            s.errors⟩ : Lexer) (by simp only [List.length_cons] at hlen; omega) rfl hq'
        refine ⟨es, s2, hres, ?_, hch, hst, hfid, ?_, hinv⟩
        · rw [hpre]; simp
        · rw [herr]
          simp [utf8Len_append, utf8Len_cons, utf8Len_singleton, utf8Len_nil, Nat.add_assoc]
      · by_cases hbs : c = '\\'
        · subst hbs
          cases cs' with
          | nil =>
            rw [ssl_backslash_nil, ha2]
            refine ⟨[], _, rfl, by simp [Lexer.add_error],
              by simp [Lexer.add_error], by simp [Lexer.add_error],
              by simp [Lexer.add_error], ?_, by simp⟩
            simp [Lexer.add_error, Lexer.current_pos, utf8Len_append, utf8Len_singleton,
              utf8Len_cons, utf8Len_nil]
          | cons c2 cs'' =>
            have hq'' : '"' ∉ cs'' := fun hcon => hq (by simp [hcon])
            rw [ssl_backslash_cons]
            have hb2 : (((s.advance).2).advance).2 = ⟨s.file_id, (s.pre ++ ['\\']) ++ [c2],
                cs'', s.start_pos, s.line, s.column + 2, s.errors⟩ := by
              rw [ha2, advance_cons _ c2 cs'' rfl]
            by_cases hval : c2 = '"' ∨ c2 = '\\' ∨ c2 = 'n' ∨ c2 = 'r' ∨ c2 = 't'
            · rw [if_pos hval, hb2]
              obtain ⟨es, s2, hres, hpre, hch, hst, hfid, herr, hinv⟩ :=
                ih cs'' (⟨s.file_id, (s.pre ++ ['\\']) ++ [c2], cs'', s.start_pos, s.line,
                  s.column + 2, s.errors⟩ : Lexer)
                  (by simp only [List.length_cons] at hlen; omega) rfl hq''
              refine ⟨es, s2, hres, ?_, hch, hst, hfid, ?_, hinv⟩
              · rw [hpre]; simp
              · rw [herr]
                simp [utf8Len_append, utf8Len_cons, utf8Len_singleton, utf8Len_nil, Nat.add_assoc]
            · rw [if_neg hval, hb2, ha2]
              obtain ⟨es, s2, hres, hpre, hch, hst, hfid, herr, hinv⟩ :=
                ih cs'' (⟨s.file_id, (s.pre ++ ['\\']) ++ [c2], cs'', s.start_pos, s.line,
                  s.column + 2, s.errors ++ [⟨.InvalidEscapeSequence c2,
                    ⟨s.file_id, utf8Len (s.pre ++ ['\\']) - 1,
                      utf8Len ((s.pre ++ ['\\']) ++ [c2])⟩⟩]⟩ : Lexer)
                  (by simp only [List.length_cons] at hlen; omega) rfl hq''
              refine ⟨⟨.InvalidEscapeSequence c2,
                  ⟨s.file_id, utf8Len (s.pre ++ ['\\']) - 1,
                    utf8Len ((s.pre ++ ['\\']) ++ [c2])⟩⟩ :: es, s2, ?_, ?_, hch,
                hst, hfid, ?_, ?_⟩
              · exact hres
              · rw [hpre]; simp
              · rw [herr]
                simp [utf8Len_append, utf8Len_cons, utf8Len_singleton, utf8Len_nil,
                  Nat.add_assoc, List.append_assoc]
              · intro e he
                cases he with
                | head => exact ⟨c2, rfl⟩
                | tail _ hmem => exact hinv e hmem
        · rw [ssl_other c cs' s hcq hnl hbs, ha2]
          obtain ⟨es, s2, hres, hpre, hch, hst, hfid, herr, hinv⟩ :=
            ih cs' (⟨s.file_id, s.pre ++ [c], cs', s.start_pos, s.line,
              s.column + 1, s.errors⟩ : Lexer)
              (by simp only [List.length_cons] at hlen; omega) rfl hq'
          refine ⟨es, s2, hres, ?_, hch, hst, hfid, ?_, hinv⟩
          · rw [hpre]; simp
          · rw [herr]
            simp [utf8Len_append, utf8Len_cons, utf8Len_nil, Nat.add_assoc]


/-! ## The claims -/

/-- C1: the claim says the `TokenType` enumeration contains a double-colon, a
float and a bool kind alongside the other thirty.  The enum actually declared
in `src/tokens.rs` (embedded as `tokensRsDeclared`) has none of the three,
while the scanner in `src/lib.rs` does construct and emit all three (shown on
the inputs `::`, `3.5` and `true`), and `src/tests.rs` names them — so the
declaration in `src/tokens.rs` contradicts the crate's own scanner and tests. -/
theorem C1_tokens_rs_enum_missing_variants :
    TokenType.DoubleColon ∉ tokensRsDeclared ∧
    TokenType.Float ∉ tokensRsDeclared ∧
    TokenType.Bool ∉ tokensRsDeclared ∧
    ((Lexer.new "::".toList 0).tokenize).1.map Token.kind = [TokenType.DoubleColon] ∧
    ((Lexer.new "3.5".toList 0).tokenize).1.map Token.kind = [TokenType.Float] ∧
    ((Lexer.new "true".toList 0).tokenize).1.map Token.kind = [TokenType.Bool] ∧
    tokensRsDeclared.length = 30 := by
  refine ⟨by decide, by decide, by decide, ?_, ?_, ?_, by decide⟩
  · rw [tokenize_some _ _ _ (show (Lexer.new "::".toList 0).next =
        (some ⟨TokenType.DoubleColon, [':', ':'], ⟨0, 0, 2⟩⟩,
          ⟨0, [':', ':'], [], 0, 1, 3, []⟩) from by decide),
      tokenize_none _ _ (show (⟨0, [':', ':'], [], 0, 1, 3, []⟩ : Lexer).next =
        (none, ⟨0, [':', ':'], [], 2, 1, 3, []⟩) from by decide)]
    rfl
  · rw [tokenize_some _ _ _ (show (Lexer.new "3.5".toList 0).next =
        (some ⟨TokenType.Float, ['3', '.', '5'], ⟨0, 0, 3⟩⟩,
          ⟨0, ['3', '.', '5'], [], 0, 1, 4, []⟩) from by decide),
      tokenize_none _ _ (show (⟨0, ['3', '.', '5'], [], 0, 1, 4, []⟩ : Lexer).next =
        (none, ⟨0, ['3', '.', '5'], [], 3, 1, 4, []⟩) from by decide)]
    rfl
  · rw [tokenize_some _ _ _ (show (Lexer.new "true".toList 0).next =
        (some ⟨TokenType.Bool, ['t', 'r', 'u', 'e'], ⟨0, 0, 4⟩⟩,
          ⟨0, ['t', 'r', 'u', 'e'], [], 0, 1, 5, []⟩) from by decide),
      tokenize_none _ _ (show (⟨0, ['t', 'r', 'u', 'e'], [], 0, 1, 5, []⟩ : Lexer).next =
        (none, ⟨0, ['t', 'r', 'u', 'e'], [], 4, 1, 5, []⟩) from by decide)]
    rfl

/-- C2: every token's lexeme is exactly the byte slice of the source at
`[span.start, span.stop)`, its UTF-8 byte length is `stop - start`,
`start ≤ stop` always, and across successive tokens of one scan the spans are
monotonically non-decreasing. -/
theorem C2_lexeme_is_byte_exact_slice :
    (∀ s : Lexer,
      (s.next_token).1.lexeme =
        byteSlice s.source (s.next_token).1.span.start (s.next_token).1.span.stop ∧
      utf8Len (s.next_token).1.lexeme =
        (s.next_token).1.span.stop - (s.next_token).1.span.start ∧
      (s.next_token).1.span.start ≤ (s.next_token).1.span.stop) ∧
    (∀ (src : List Char) (fid : Nat),
      (∀ t ∈ ((Lexer.new src fid).tokenize).1,
        t.lexeme = byteSlice src t.span.start t.span.stop ∧
        utf8Len t.lexeme = t.span.stop - t.span.start ∧
        t.span.start ≤ t.span.stop) ∧
      List.Chain' (fun a b => a.span.stop ≤ b.span.start)
        ((Lexer.new src fid).tokenize).1) := by
  constructor
  · intro s
    obtain ⟨-, -, -, -, hc2, -, -, hc5, hc6⟩ := next_token_facts s
    exact ⟨hc5, hc6, hc2⟩
  · intro src fid
    obtain ⟨hmem, hchain, -, -, -⟩ := tokenize_spec src.length (Lexer.new src fid) (le_refl _)
    refine ⟨?_, hchain⟩
    intro t ht
    obtain ⟨-, m2, -, m4, m5, -⟩ := hmem t ht
    refine ⟨?_, m5, m2⟩
    rw [m4]
    rfl

theorem C2_lexeme_is_byte_exact_slice_witness :
    (⟨TokenType.Plus, ['+'], ⟨0, 0, 1⟩⟩ : Token).lexeme =
      byteSlice "+".toList (⟨TokenType.Plus, ['+'], ⟨0, 0, 1⟩⟩ : Token).span.start
        (⟨TokenType.Plus, ['+'], ⟨0, 0, 1⟩⟩ : Token).span.stop ∧
    utf8Len (⟨TokenType.Plus, ['+'], ⟨0, 0, 1⟩⟩ : Token).lexeme =
      (⟨TokenType.Plus, ['+'], ⟨0, 0, 1⟩⟩ : Token).span.stop -
        (⟨TokenType.Plus, ['+'], ⟨0, 0, 1⟩⟩ : Token).span.start ∧
    (⟨TokenType.Plus, ['+'], ⟨0, 0, 1⟩⟩ : Token).span.start ≤
      (⟨TokenType.Plus, ['+'], ⟨0, 0, 1⟩⟩ : Token).span.stop := by
  have htoks : ((Lexer.new "+".toList 0).tokenize).1 =
      [⟨TokenType.Plus, ['+'], ⟨0, 0, 1⟩⟩] := by
    rw [tokenize_some _ _ _ (show (Lexer.new "+".toList 0).next =
        (some ⟨TokenType.Plus, ['+'], ⟨0, 0, 1⟩⟩, ⟨0, ['+'], [], 0, 1, 2, []⟩) from by decide),
      tokenize_none _ _ (show (⟨0, ['+'], [], 0, 1, 2, []⟩ : Lexer).next =
        (none, ⟨0, ['+'], [], 1, 1, 2, []⟩) from by decide)]
  exact (C2_lexeme_is_byte_exact_slice.2 "+".toList 0).1
    ⟨TokenType.Plus, ['+'], ⟨0, 0, 1⟩⟩ (by rw [htoks]; exact List.Mem.head _)


/-- C4: reaching end-of-input inside a string literal (including with a
trailing backslash) records `UnterminatedString` spanning from the opening
quote to the current position, returns an `Illegal` token, the stream reports
`Eof` on the subsequent call, and exactly one token is produced. -/
theorem C4_unterminated_string_one_illegal_token (cs : List Char) (fid : Nat)
    (h : '"' ∉ cs) :
    ∃ es,
      ((Lexer.new ('"' :: cs) fid).tokenize).1 =
        [⟨TokenType.Illegal, '"' :: cs, ⟨fid, 0, utf8Len ('"' :: cs)⟩⟩] ∧
      ((Lexer.new ('"' :: cs) fid).tokenize).2.errors =
        es ++ [⟨.UnterminatedString, ⟨fid, 0, utf8Len ('"' :: cs)⟩⟩] ∧
      (∀ e ∈ es, ∃ ch, e.kind = LexerErrorKind.InvalidEscapeSequence ch) ∧
      ((((Lexer.new ('"' :: cs) fid).tokenize).2).next_token).1.kind = TokenType.Eof := by
  have hq := next_token_quote (Lexer.new ('"' :: cs) fid) cs rfl
  obtain ⟨es, s2, hres, hpre, hch, hst, hfid2, herr, hinv⟩ :=
    scan_string_loop_unterminated cs.length cs
      (⟨fid, ['"'], cs, 0, 1, 2, []⟩ : Lexer) (le_refl _) rfl h
  have htok1 : (Lexer.new ('"' :: cs) fid).next_token =
      (s2.make_token TokenType.Illegal, s2) := by
    rw [hq]
    unfold Lexer.scan_string
    exact hres
  have htokval : s2.make_token TokenType.Illegal =
      ⟨TokenType.Illegal, '"' :: cs, ⟨fid, 0, utf8Len ('"' :: cs)⟩⟩ := by
    rw [make_token_eq s2 TokenType.Illegal [] ('"' :: cs) (by rw [hpre]; rfl)
      (by rw [hst]; rfl)]
    simp [utf8Len_nil, hfid2]
  have hnext1 : (Lexer.new ('"' :: cs) fid).next =
      (some (s2.make_token TokenType.Illegal), s2) := by
    simp only [Lexer.next, htok1]
    rw [if_neg (by simp [Lexer.make_token])]
  rw [tokenize_some _ _ _ hnext1, tokenize_none _ _ (next_empty s2 hch)]
  refine ⟨es, ?_, ?_, hinv, ?_⟩
  · rw [htokval]
  · show s2.errors = es ++ [⟨.UnterminatedString, ⟨fid, 0, utf8Len ('"' :: cs)⟩⟩]
    rw [herr]
    simp [utf8Len_cons, utf8Len_singleton, utf8Len_nil]
  · rw [next_token_empty _ (show ({ s2 with start_pos := s2.current_pos } : Lexer).chars = []
      from hch)]

theorem C4_unterminated_string_one_illegal_token_witness :
    ∃ es,
      ((Lexer.new ('"' :: ['a', '\\']) 0).tokenize).1 =
        [⟨TokenType.Illegal, '"' :: ['a', '\\'], ⟨0, 0, utf8Len ('"' :: ['a', '\\'])⟩⟩] ∧
      ((Lexer.new ('"' :: ['a', '\\']) 0).tokenize).2.errors =
        es ++ [⟨.UnterminatedString, ⟨0, 0, utf8Len ('"' :: ['a', '\\'])⟩⟩] ∧
      (∀ e ∈ es, ∃ ch, e.kind = LexerErrorKind.InvalidEscapeSequence ch) ∧
      ((((Lexer.new ('"' :: ['a', '\\']) 0).tokenize).2).next_token).1.kind =
        TokenType.Eof :=
  C4_unterminated_string_one_illegal_token ['a', '\\'] 0 (by decide)

/-- C5: inside a string, a backslash followed by a character other than
`"`, `\\`, `n`, `r`, `t` records `InvalidEscapeSequence` with that character
and a span covering the backslash and the invalid character, consumes both
and continues non-fatally; a valid escape consumes both characters verbatim
with no error; and a string containing an invalid escape but a closing quote
still yields a single (untruncated) `String` token. -/
theorem C5_invalid_escape_nonfatal :
    (∀ (s : Lexer) (c2 : Char) (rest : List Char),
      s.chars = '\\' :: c2 :: rest →
      ¬(c2 = '"' ∨ c2 = '\\' ∨ c2 = 'n' ∨ c2 = 'r' ∨ c2 = 't') →
      s.scan_string = Lexer.scan_string ⟨s.file_id, s.pre ++ ['\\', c2], rest,
        s.start_pos, s.line, s.column + 2,
        s.errors ++ [⟨.InvalidEscapeSequence c2,
          ⟨s.file_id, s.current_pos, s.current_pos + 1 + c2.utf8Size⟩⟩]⟩) ∧
    (∀ (s : Lexer) (c2 : Char) (rest : List Char),
      s.chars = '\\' :: c2 :: rest →
      (c2 = '"' ∨ c2 = '\\' ∨ c2 = 'n' ∨ c2 = 'r' ∨ c2 = 't') →
      s.scan_string = Lexer.scan_string ⟨s.file_id, s.pre ++ ['\\', c2], rest,
        s.start_pos, s.line, s.column + 2, s.errors⟩) ∧
    (((Lexer.new "\"a\\qb\"".toList 0).tokenize).1 =
        [⟨TokenType.String, "\"a\\qb\"".toList, ⟨0, 0, 6⟩⟩] ∧
      ((Lexer.new "\"a\\qb\"".toList 0).tokenize).2.errors =
        [⟨.InvalidEscapeSequence 'q', ⟨0, 2, 4⟩⟩]) := by
  refine ⟨?_, ?_, ?_, ?_⟩
  · intro s c2 rest h hval
    have ha2 : (s.advance).2 = ⟨s.file_id, s.pre ++ ['\\'], c2 :: rest, s.start_pos,
        s.line, s.column + 1, s.errors⟩ := by rw [advance_cons s '\\' (c2 :: rest) h]
    have hb2 : (((s.advance).2).advance).2 = ⟨s.file_id, (s.pre ++ ['\\']) ++ [c2],
        rest, s.start_pos, s.line, s.column + 2, s.errors⟩ := by
      rw [ha2, advance_cons _ c2 rest rfl]
    show Lexer.scan_string s = _
    unfold Lexer.scan_string
    rw [h, ssl_backslash_cons, if_neg hval, hb2, ha2]
    dsimp only [Lexer.current_pos]
    congr 1
    simp [Lexer.add_error, utf8Len_append, utf8Len_singleton, utf8Len_cons,
      utf8Len_nil, Nat.add_assoc, show ('\\' : Char).utf8Size = 1 from by decide]
  · intro s c2 rest h hval
    have ha2 : (s.advance).2 = ⟨s.file_id, s.pre ++ ['\\'], c2 :: rest, s.start_pos,
        s.line, s.column + 1, s.errors⟩ := by rw [advance_cons s '\\' (c2 :: rest) h]
    have hb2 : (((s.advance).2).advance).2 = ⟨s.file_id, (s.pre ++ ['\\']) ++ [c2],
        rest, s.start_pos, s.line, s.column + 2, s.errors⟩ := by
      rw [ha2, advance_cons _ c2 rest rfl]
    show Lexer.scan_string s = _
    unfold Lexer.scan_string
    rw [h, ssl_backslash_cons, if_pos hval, hb2]
    dsimp only [Lexer.current_pos]
    congr 1
    simp
  · rw [tokenize_some _ _ _ (show (Lexer.new "\"a\\qb\"".toList 0).next =
        (some ⟨TokenType.String, ['"', 'a', '\\', 'q', 'b', '"'], ⟨0, 0, 6⟩⟩,
          ⟨0, ['"', 'a', '\\', 'q', 'b', '"'], [], 0, 1, 7,
            [⟨.InvalidEscapeSequence 'q', ⟨0, 2, 4⟩⟩]⟩) from by decide),
      tokenize_none _ _ (show (⟨0, ['"', 'a', '\\', 'q', 'b', '"'], [], 0, 1, 7,
          [⟨.InvalidEscapeSequence 'q', ⟨0, 2, 4⟩⟩]⟩ : Lexer).next =
        (none, ⟨0, ['"', 'a', '\\', 'q', 'b', '"'], [], 6, 1, 7,
          [⟨.InvalidEscapeSequence 'q', ⟨0, 2, 4⟩⟩]⟩) from by decide)]
    rfl
  · rw [tokenize_some _ _ _ (show (Lexer.new "\"a\\qb\"".toList 0).next =
        (some ⟨TokenType.String, ['"', 'a', '\\', 'q', 'b', '"'], ⟨0, 0, 6⟩⟩,
          ⟨0, ['"', 'a', '\\', 'q', 'b', '"'], [], 0, 1, 7,
            [⟨.InvalidEscapeSequence 'q', ⟨0, 2, 4⟩⟩]⟩) from by decide),
      tokenize_none _ _ (show (⟨0, ['"', 'a', '\\', 'q', 'b', '"'], [], 0, 1, 7,
          [⟨.InvalidEscapeSequence 'q', ⟨0, 2, 4⟩⟩]⟩ : Lexer).next =
        (none, ⟨0, ['"', 'a', '\\', 'q', 'b', '"'], [], 6, 1, 7,
          [⟨.InvalidEscapeSequence 'q', ⟨0, 2, 4⟩⟩]⟩) from by decide)]


/-- C6: at end of input `next_token` returns a zero-width `Eof` token with an
empty lexeme spanning `[current_pos, current_pos)`, and the iterator
(`Iterator::next`) never yields an `Eof` token — it returns `none` instead,
so the collected stream contains no `Eof`. -/
theorem C6_eof_never_yielded :
    (∀ s : Lexer, s.chars = [] →
      s.next_token = (⟨TokenType.Eof, [], ⟨s.file_id, s.current_pos, s.current_pos⟩⟩,
        { s with start_pos := s.current_pos })) ∧
    (∀ (s : Lexer) (t : Token) (s1 : Lexer), s.next = (some t, s1) →
      t.kind ≠ TokenType.Eof) ∧
    (∀ (src : List Char) (fid : Nat), ∀ t ∈ ((Lexer.new src fid).tokenize).1,
      t.kind ≠ TokenType.Eof) := by
  refine ⟨next_token_empty, ?_, ?_⟩
  · intro s t s1 h
    exact (next_eq_some s t s1 h).2.2
  · intro src fid t ht
    exact ((tokenize_spec src.length _ (le_refl _)).1 t ht).2.2.2.2.2

/-- C7: consuming a `\n` outside a string yields a Newline token whose span
covers exactly the newline byte (made before the counters update), after
which the line counter is one greater and the column is reset to 1. -/
theorem C7_newline_updates_counters (s : Lexer) (rest : List Char)
    (h : s.chars = '\n' :: rest) :
    (s.next_token).1 =
      ⟨TokenType.Newline, ['\n'], ⟨s.file_id, s.current_pos, s.current_pos + 1⟩⟩ ∧
    (s.next_token).2.line = s.line + 1 ∧
    (s.next_token).2.column = 1 ∧
    (s.next_token).2.chars = rest := by
  obtain ⟨h1, h2⟩ := next_token_newline s rest h
  exact ⟨h1, by rw [h2], by rw [h2], by rw [h2]⟩

theorem C7_newline_updates_counters_witness :
    ((Lexer.new ['\n', 'x'] 0).next_token).1 =
      ⟨TokenType.Newline, ['\n'], ⟨0, (Lexer.new ['\n', 'x'] 0).current_pos,
        (Lexer.new ['\n', 'x'] 0).current_pos + 1⟩⟩ ∧
    ((Lexer.new ['\n', 'x'] 0).next_token).2.line = 1 + 1 ∧
    ((Lexer.new ['\n', 'x'] 0).next_token).2.column = 1 ∧
    ((Lexer.new ['\n', 'x'] 0).next_token).2.chars = ['x'] :=
  C7_newline_updates_counters (Lexer.new ['\n', 'x'] 0) ['x'] rfl

/-- C8: an input consisting solely of whitespace yields an empty token stream,
where whitespace is exactly space, tab and carriage return — a newline is not
skipped as whitespace (it yields a Newline token instead). -/
theorem C8_whitespace_only_stream_empty :
    (∀ c : Char, is_hspace c = true ↔ (c = ' ' ∨ c = '\t' ∨ c = '\r')) ∧
    (∀ (cs : List Char) (fid : Nat), (∀ c ∈ cs, is_hspace c = true) →
      ((Lexer.new cs fid).tokenize).1 = []) ∧
    ((Lexer.new ['\n'] 0).tokenize).1 = [⟨TokenType.Newline, ['\n'], ⟨0, 0, 1⟩⟩] := by
  refine ⟨is_hspace_iff, ?_, ?_⟩
  · intro cs fid hws
    have ht : cs.takeWhile is_hspace = cs := List.takeWhile_eq_self_iff.mpr hws
    have hd : cs.dropWhile is_hspace = [] := List.dropWhile_eq_nil_iff.mpr hws
    have hskip : (Lexer.new cs fid).skip_whitespace =
        ⟨fid, [] ++ cs, [], 0, 1, 1 + cs.length, []⟩ := by
      rw [skip_whitespace_eq]
      show (⟨fid, [] ++ List.takeWhile is_hspace cs, List.dropWhile is_hspace cs, 0, 1,
        1 + (List.takeWhile is_hspace cs).length, []⟩ : Lexer) = _
      rw [ht, hd]
    have h1 : ((Lexer.new cs fid).next_token).1.kind = TokenType.Eof := by
      unfold Lexer.next_token
      rw [hskip]
      dsimp only [Lexer.current_pos, Lexer.advance]
    have h2 : (Lexer.new cs fid).next = (none, ((Lexer.new cs fid).next_token).2) := by
      simp only [Lexer.next]
      rw [if_pos h1]
    rw [tokenize_none _ _ h2]
  · rw [tokenize_some _ _ _ (show (Lexer.new ['\n'] 0).next =
        (some ⟨TokenType.Newline, ['\n'], ⟨0, 0, 1⟩⟩,
          ⟨0, ['\n'], [], 0, 2, 1, []⟩) from by decide),
      tokenize_none _ _ (show (⟨0, ['\n'], [], 0, 2, 1, []⟩ : Lexer).next =
        (none, ⟨0, ['\n'], [], 1, 2, 1, []⟩) from by decide)]

/-- C9: scanning a bounded buffer terminates — every call on a non-empty
remainder strictly advances the byte cursor, the stream yields at most one
token per remaining character, consumes the whole buffer, and the state the
collection ends in reports `Eof`. -/
theorem C9_scanning_terminates :
    (∀ s : Lexer, s.chars ≠ [] → s.current_pos < (s.next_token).2.current_pos) ∧
    (∀ (src : List Char) (fid : Nat),
      ((Lexer.new src fid).tokenize).1.length ≤ src.length ∧
      ((Lexer.new src fid).tokenize).2.chars = [] ∧
      ((((Lexer.new src fid).tokenize).2).next_token).1.kind = TokenType.Eof) := by
  refine ⟨next_token_cursor_advances, ?_⟩
  intro src fid
  obtain ⟨-, -, hchars, hlen, -⟩ := tokenize_spec src.length (Lexer.new src fid) (le_refl _)
  refine ⟨hlen, hchars, ?_⟩
  rw [next_token_empty _ hchars]

theorem C10_alpha_starts_identifier_witness :
    (Lexer.new "αβ1_x".toList 0).next_token =
      Lexer.scan_identifier ⟨0, (Lexer.new "αβ1_x".toList 0).pre ++ ['α'],
        ['β', '1', '_', 'x'], (Lexer.new "αβ1_x".toList 0).current_pos, 1, 1 + 1, []⟩ ∧
    ((Lexer.new "αβ1_x".toList 0).next_token).1.lexeme =
      'α' :: (['β', '1', '_', 'x'].takeWhile is_ident_char) ∧
    ((Lexer.new "αβ1_x".toList 0).next_token).1.kind ∈ [TokenType.Identifier,
      TokenType.Bool, TokenType.Let, TokenType.If, TokenType.Else, TokenType.While,
      TokenType.Struct, TokenType.Fun, TokenType.Return, TokenType.Pub, TokenType.Use] ∧
    ((Lexer.new "αβ1_x".toList 0).next_token).1.kind ≠ TokenType.Illegal :=
  next_token_alpha (Lexer.new "αβ1_x".toList 0) 'α' ['β', '1', '_', 'x'] (by decide)
    (Or.inl (by decide))

end NyanLexer
